import Mathlib

/-!
Shallow embedding of the HELB mentions scraper (`scraper_to_sheets.py`):
text normalization, the keyword filter, the sentiment classifier, the
per-adapter candidate loops, the cross-run and within-run deduplication,
and the batched writer.  Definitions are translated from the source;
theorems settle the specification's claims about them.
-/

namespace HelbScraper

/-! ### Python `str.strip()` -/

/-- Whitespace test used by `str.strip()` (modelled on ASCII whitespace). -/
def isWS (c : Char) : Bool := c.isWhitespace

/-- Drop leading whitespace characters. -/
def trimLeftL (l : List Char) : List Char := l.dropWhile isWS

/-- Drop trailing whitespace characters. -/
def trimRightL (l : List Char) : List Char := (l.reverse.dropWhile isWS).reverse

/-- Python `s.strip()`: remove leading and trailing whitespace. -/
def pstrip (s : String) : String := String.mk (trimRightL (trimLeftL s.data))

/-! ### The keyword filter (`KEYWORDS`, `contains_keywords`)

The source compiles, for each keyword `k`, the regex
`\b re.escape(k) \b` with `re.IGNORECASE` and reports a match anywhere in
the text.  Every keyword starts and ends with a word character, so a
match at position `i` means: the lower-cased text carries the keyword's
characters at `i`, the character before `i` (if any) is not a word
character, and the character after the match (if any) is not a word
character. -/

/-- The fixed keyword list from the source (all lower-case). -/
def KEYWORDS : List String :=
  ["helb", "higher education loans board", "loan board", "student loans kenya"]

/-- Regex `\w`: letters, digits and underscore. -/
def wordChar (c : Char) : Bool := c.isAlphanum || c == '_'

/-- `\b` holds before position `i`: start of text, or a non-word char at `i-1`. -/
def boundaryBefore (text : List Char) (i : Nat) : Bool :=
  match i with
  | 0 => true
  | j + 1 =>
    match text.get? j with
    | some c => !wordChar c
    | none => true

/-- `\b` holds after position `j`: end of text, or a non-word char at `j`. -/
def boundaryAfter (text : List Char) (j : Nat) : Bool :=
  match text.get? j with
  | some c => !wordChar c
  | none => true

/-- The (lower-cased) keyword `kw` matches `text` at position `i` with word
boundaries on both sides. -/
def kwMatchAt (text kw : List Char) (i : Nat) : Bool :=
  (((text.drop i).take kw.length).map Char.toLower == kw)
    && boundaryBefore text i && boundaryAfter text (i + kw.length)

/-- `p.search(text)` for the compiled pattern of one keyword. -/
def searchKw (text kw : List Char) : Bool :=
  (List.range (text.length + 1)).any (kwMatchAt text kw)

/-- `contains_keywords(text)`: some keyword pattern matches somewhere. -/
def contains_keywords (text : String) : Bool :=
  KEYWORDS.any (fun k => searchKw text.data k.data)

/-- Specification-side reading of one keyword occurrence: the keyword occurs
in the text, case-insensitively, delimited by word boundaries. -/
def OccursWholeWord (kw text : String) : Prop :=
  ∃ i, ((text.data.drop i).take kw.data.length).map Char.toLower = kw.data
    ∧ boundaryBefore text.data i = true
    ∧ boundaryAfter text.data (i + kw.data.length) = true

/-! ### The data model -/

/-- One row of the store / one normalized candidate: the six columns
`[title, published, source, summary, link, tonality]`. -/
structure Row where
  title : String
  published : String
  source : String
  summary : String
  link : String
  tonality : String
deriving DecidableEq, Repr

/-- The header row written to an empty store. -/
def HEADERS : List String :=
  ["title", "published", "source", "summary", "link", "tonality"]

/-- The `(title.strip(), published.strip())` signature used by dedup. -/
def sigOf (r : Row) : String × String := (pstrip r.title, pstrip r.published)

/-- `existing_links`: the stripped links of existing records whose `link`
field is truthy (non-empty). -/
def existing_links (store : List Row) : List String :=
  (store.filter (fun r => decide (r.link ≠ ""))).map (fun r => pstrip r.link)

/-- `existing_sigs`: the stripped `(title, published)` signatures of ALL
existing records (the source does not restrict to linkless records). -/
def existing_sigs (store : List Row) : List (String × String) :=
  store.map sigOf

/-! ### Sentiment classifier -/

/-- `classify_sentiment`, with the third-party compound polarity scorer
abstracted as a function `score` (values modelled as rationals). -/
def classify_sentiment (score : String → ℚ) (text : String) : String :=
  if score text ≥ 5 / 100 then "Positive"
  else if score text ≤ -(5 / 100) then "Negative"
  else "Neutral"

/-! ### Normalization of adapter candidates -/

/-- A parsed calendar date `(year, month, day)`. -/
def Date3 := Nat × Nat × Nat

/-- Zero-pad the decimal form of `n` to width `w` (as `strftime` does). -/
def padNum (w n : Nat) : String :=
  String.mk (List.replicate (w - (toString n).length) '0') ++ toString n

/-- `strftime("%Y-%m-%d")` on a parsed date. -/
def formatYMD (d : Date3) : String :=
  padNum 4 d.1 ++ "-" ++ padNum 2 d.2.1 ++ "-" ++ padNum 2 d.2.2

/-- The shared published-date normalization: `pd.to_datetime(raw,
errors="coerce")` (abstracted as `parseDate`), canonical `YYYY-MM-DD` on
success, the raw string unchanged on failure. -/
def normalizePublished (parseDate : String → Option Date3) (raw : String) : String :=
  match parseDate raw with
  | some d => formatYMD d
  | none => raw

/-- `process_gnews`: normalize one News-API article's raw fields into a row.
The raw field values (after the source's dict-key fallback chains) are the
inputs; `score` and `parseDate` abstract the third-party scorer and parser. -/
def process_gnews (score : String → ℚ) (parseDate : String → Option Date3)
    (rawTitle rawSummary rawLink rawPublished source : String) : Row :=
  let title := pstrip rawTitle
  let summary := pstrip rawSummary
  let link := pstrip rawLink
  let published_raw := pstrip rawPublished
  let published := normalizePublished parseDate published_raw
  let tonality := classify_sentiment score (if summary ≠ "" then summary else title)
  ⟨title, published, source, summary, link, tonality⟩

/-- The body of `process_rss`'s entry loop: normalize one feed entry and
keep it only when the keyword filter accepts `title + " " + summary`. -/
def processRssEntry (score : String → ℚ) (parseDate : String → Option Date3)
    (feedName rawTitle rawSummary rawLink rawPublished : String) : Option Row :=
  let title := pstrip rawTitle
  let summary := pstrip rawSummary
  let link := pstrip rawLink
  let published_raw := pstrip rawPublished
  let published := normalizePublished parseDate published_raw
  if contains_keywords (title ++ " " ++ summary) = false then none
  else
    let tonality := classify_sentiment score (if summary ≠ "" then summary else title)
    some ⟨title, published, feedName, summary, link, tonality⟩

/-- `process_candidate` from the HTML adapter: given the page-local `seen`
link set and the rows collected so far (the state `st`), a headline text and
a candidate href, keep the candidate only when the title is non-empty, the
keyword filter accepts the TITLE alone, and the resolved link is non-empty
and unseen; the article page fetch (`fetchArticle`, returning the extracted
published date and summary) happens only after those checks, and its failure
keeps the candidate with empty `published`/`summary`.  `resolve` abstracts
`make_absolute(base_url, ·)`. -/
def process_candidate (score : String → ℚ) (resolve : String → String)
    (fetchArticle : String → Option (String × String)) (sourceName : String)
    (st : List String × List Row) (titleText candLink : String) :
    List String × List Row :=
  if titleText = "" then st
  else if contains_keywords titleText = false then st
  else
    let link := resolve candLink
    if link = "" then st
    else if link ∈ st.1 then st
    else
      let ps := match fetchArticle link with
        | some ps => ps
        | none => ("", "")
      let tonality := classify_sentiment score (if ps.2 ≠ "" then ps.2 else titleText)
      (link :: st.1, st.2 ++ [⟨titleText, ps.1, sourceName, ps.2, link, tonality⟩])

/-! ### The collection loops (cross-run dedup) -/

/-- The shared body of the three collection loops at the bottom of the
script: strip the candidate's link; unless `--backfill` was given, drop the
candidate when its non-empty link is an existing link, or when it is
linkless and its signature is an existing signature; the News-API loop
(`checkKw = true`) additionally keeps only candidates whose
`title + " " + summary` passes the keyword filter. -/
def loopKeep (backfill : Bool) (links : List String)
    (sigs : List (String × String)) (checkKw : Bool) (row : Row) : Option Row :=
  let link := pstrip row.link
  if backfill = false ∧ link ≠ "" ∧ link ∈ links then none
  else if backfill = false ∧ link = "" ∧ sigOf row ∈ sigs then none
  else if checkKw = true ∧ contains_keywords (row.title ++ " " ++ row.summary) = false then none
  else some { row with link := link }

/-- `new_rows` after the three loops: News-API candidates (with the extra
keyword check), then RSS rows, then HTML rows, each run through the
cross-run dedup against the store-derived sets. -/
def runNewRows (backfill : Bool) (store g r h : List Row) : List Row :=
  let links := existing_links store
  let sigs := existing_sigs store
  g.filterMap (loopKeep backfill links sigs true)
    ++ r.filterMap (loopKeep backfill links sigs false)
    ++ h.filterMap (loopKeep backfill links sigs false)

/-! ### Within-run dedup (`final_rows`) -/

/-- The `final_rows` loop with its two `seen` accumulators: a row with a
non-empty stripped link is kept iff that link was not seen before; a
linkless row is kept iff its stripped signature was not seen before. -/
def dedupLocal : List Row → List String → List (String × String) → List Row
  | [], _, _ => []
  | r :: rest, seenL, seenS =>
    let ln := pstrip r.link
    if ln ≠ "" then
      if ln ∈ seenL then dedupLocal rest seenL seenS
      else { r with link := ln } :: dedupLocal rest (ln :: seenL) seenS
    else
      if sigOf r ∈ seenS then dedupLocal rest seenL seenS
      else { r with link := ln } :: dedupLocal rest seenL (sigOf r :: seenS)

/-- `final_rows`: within-run dedup of `new_rows`, starting from empty seen
sets. -/
def final_rows (rows : List Row) : List Row := dedupLocal rows [] []

/-- The final batch of one full run. -/
def runFinalRows (backfill : Bool) (store g r h : List Row) : List Row :=
  final_rows (runNewRows backfill store g r h)

/-! ### The writer (append phase)

The source's `except Exception:` block guarding the header append (lines
421-422) contains only a comment — as written this is a Python
`IndentationError` at parse time; the evident intent (an ignored-failure
no-op handler) is modelled here. -/

/-- One observable write against the worksheet. -/
inductive WriteOp where
  | header : WriteOp
  | batchAppend : List Row → WriteOp
  | rowAppend : Row → WriteOp
deriving DecidableEq, Repr

/-- The grouping loop `for i in range(0, len(final_rows), BATCH)` with
`BATCH = 50`: every step consumes at least one row, so the row count is a
structural bound on the number of iterations (the fuel). -/
def chunkGo : Nat → List Row → List (List Row)
  | 0, _ => []
  | _ + 1, [] => []
  | fuel + 1, a :: rest => ((a :: rest).take 50) :: chunkGo fuel ((a :: rest).drop 50)

/-- Split the final batch into the writer's groups of at most `BATCH = 50`
rows, in order. -/
def chunkBatches (rows : List Row) : List (List Row) :=
  chunkGo rows.length rows

/-- The row-wise fallback: `append_row` succeeds (`rOk`) and the row is
written, or it raises and the row is logged and skipped. -/
def rowOpIf (rOk : Row → Bool) (q : Row) : Option WriteOp :=
  if rOk q then some (WriteOp.rowAppend q) else none

/-- The batched append loop: a group whose `append_rows` call succeeds
(`bOk`) is written as one batch; otherwise the writer falls back to
`append_row` per row, and a row whose own append fails (`¬ rOk`) is logged
and skipped. -/
def batchOps (bOk : List Row → Bool) (rOk : Row → Bool)
    (rows : List Row) : List WriteOp :=
  ((chunkBatches rows).map (fun c =>
    if bOk c then [WriteOp.batchAppend c]
    else c.filterMap (rowOpIf rOk))).flatten

/-- The whole append phase: nothing at all when the final batch is empty;
otherwise the header first when the store has no values, then the batched
appends. -/
def appendPhase (storeValues : List (List String)) (bOk : List Row → Bool)
    (rOk : Row → Bool) (finalRows : List Row) : List WriteOp :=
  if finalRows.isEmpty then []
  else (if storeValues.isEmpty then [WriteOp.header] else []) ++ batchOps bOk rOk finalRows

/-- The data rows an operation adds to the store. -/
def opRows : WriteOp → List Row
  | .header => []
  | .batchAppend c => c
  | .rowAppend r => [r]

/-- All data rows a run's write operations add to the store. -/
def appendedRows (ops : List WriteOp) : List Row := (ops.map opRows).flatten

/-- Concrete pairwise-distinct rows for the writer scenario. -/
def wRow (i : Nat) : Row :=
  ⟨"t" ++ toString i, "2024-01-0" ++ toString i, "s", "m", "http://h/" ++ toString i, "Neutral"⟩

/-- Rows whose (already stripped) link equals `l`. -/
def linkEq (l : String) : Row → Bool := fun z => z.link == l

/-- Rows whose stripped link equals `l`. -/
def plinkEq (l : String) : Row → Bool := fun z => pstrip z.link == l

/-- A concrete News-API candidate (keyword in title and summary). -/
def gCand : Row := ⟨"HELB news", "2024-01-01", "GNews", "about HELB", " http://x ", "Neutral"⟩

/-- A concrete RSS candidate carrying the same resolved link as `gCand`. -/
def rCand : Row := ⟨"Fees update", "2024-01-02", "Nation", "s", "http://x", "Neutral"⟩

/-- A concrete existing record that has a non-empty link. -/
def storeRowLinked : Row := ⟨"T", "2024-01-01", "S", "m", "http://a", "Neutral"⟩

/-- A concrete linkless candidate sharing `storeRowLinked`'s signature. -/
def candLinkless : Row := ⟨"T", "2024-01-01", "S2", "m2", "", "Neutral"⟩

/-! ## Lemmas about trimming -/

theorem dropWhile_self (p : Char → Bool) (l : List Char) :
    (l.dropWhile p).dropWhile p = l.dropWhile p := by
  induction l with
  | nil => rfl
  | cons a l ih =>
    rw [List.dropWhile_cons]
    split
    · exact ih
    · rw [List.dropWhile_cons]
      simp [*]

theorem head?_dropWhile_not (p : Char → Bool) (l : List Char) (c : Char)
    (h : (l.dropWhile p).head? = some c) : p c = false := by
  induction l with
  | nil => simp [List.dropWhile] at h
  | cons a l ih =>
    rw [List.dropWhile_cons] at h
    by_cases hpa : p a
    · rw [if_pos hpa] at h
      exact ih h
    · rw [if_neg hpa] at h
      simp only [List.head?_cons, Option.some.injEq] at h
      subst h
      simpa using hpa

theorem exists_append_dropWhile (p : Char → Bool) (l : List Char) :
    ∃ t, l = t ++ l.dropWhile p := by
  induction l with
  | nil => exact ⟨[], rfl⟩
  | cons a l ih =>
    rw [List.dropWhile_cons]
    split
    · obtain ⟨t, ht⟩ := ih
      exact ⟨a :: t, by rw [List.cons_append, ← ht]⟩
    · exact ⟨[], rfl⟩

theorem trimRightL_trimRightL (l : List Char) :
    trimRightL (trimRightL l) = trimRightL l := by
  unfold trimRightL
  rw [List.reverse_reverse, dropWhile_self]

theorem trimLeftL_trimRightL_trimLeftL (l : List Char) :
    trimLeftL (trimRightL (trimLeftL l)) = trimRightL (trimLeftL l) := by
  obtain ⟨t, ht⟩ := exists_append_dropWhile isWS (trimLeftL l).reverse
  have hA : trimLeftL l = trimRightL (trimLeftL l) ++ t.reverse := by
    conv_lhs => rw [← List.reverse_reverse (trimLeftL l), ht]
    rw [List.reverse_append]
    rfl
  cases hB : trimRightL (trimLeftL l) with
  | nil => rfl
  | cons x xs =>
    have hx : isWS x = false := by
      apply head?_dropWhile_not isWS l
      have : trimLeftL l = x :: (xs ++ t.reverse) := by
        rw [hA, hB, List.cons_append]
      unfold trimLeftL at this
      rw [this]
      rfl
    unfold trimLeftL
    rw [List.dropWhile_cons, hx]
    simp

theorem pstrip_idem (s : String) : pstrip (pstrip s) = pstrip s := by
  show String.mk (trimRightL (trimLeftL (trimRightL (trimLeftL s.data))))
    = String.mk (trimRightL (trimLeftL s.data))
  rw [trimLeftL_trimRightL_trimLeftL, trimRightL_trimRightL]

/-! ## Lemmas about the keyword filter -/

theorem searchKw_iff (text kw : List Char) (hkw : kw ≠ []) :
    searchKw text kw = true ↔
      ∃ i, ((text.drop i).take kw.length).map Char.toLower = kw
        ∧ boundaryBefore text i = true ∧ boundaryAfter text (i + kw.length) = true := by
  unfold searchKw
  rw [List.any_eq_true]
  constructor
  · rintro ⟨i, _, hi⟩
    unfold kwMatchAt at hi
    simp only [Bool.and_eq_true, beq_iff_eq] at hi
    exact ⟨i, hi.1.1, hi.1.2, hi.2⟩
  · rintro ⟨i, h1, h2, h3⟩
    refine ⟨i, ?_, ?_⟩
    · rw [List.mem_range]
      have hlen := congrArg List.length h1
      simp only [List.length_map, List.length_take, List.length_drop] at hlen
      have hk0 : 0 < kw.length := List.length_pos.mpr hkw
      omega
    · unfold kwMatchAt
      simp [h1, h2, h3]

theorem contains_keywords_iff (text : String) :
    contains_keywords text = true ↔ ∃ kw ∈ KEYWORDS, OccursWholeWord kw text := by
  unfold contains_keywords
  rw [List.any_eq_true]
  constructor
  · rintro ⟨k, hk, hs⟩
    have hne : k.data ≠ [] := by
      simp only [KEYWORDS, List.mem_cons, List.not_mem_nil, or_false] at hk
      rcases hk with rfl | rfl | rfl | rfl <;> decide
    exact ⟨k, hk, (searchKw_iff _ _ hne).mp hs⟩
  · rintro ⟨k, hk, ho⟩
    have hne : k.data ≠ [] := by
      simp only [KEYWORDS, List.mem_cons, List.not_mem_nil, or_false] at hk
      rcases hk with rfl | rfl | rfl | rfl <;> decide
    exact ⟨k, hk, (searchKw_iff _ _ hne).mpr ho⟩

/-- C5: `contains_keywords` returns true exactly when some member of the
fixed keyword list occurs in the text as a whole-word, case-insensitive
match; "HELB announced changes" matches and "subhelbish news" (keyword
"helb" embedded inside a longer word) does not. -/
theorem contains_keywords_whole_word :
    (∀ text, contains_keywords text = true ↔ ∃ kw ∈ KEYWORDS, OccursWholeWord kw text)
    ∧ contains_keywords "HELB announced changes" = true
    ∧ contains_keywords "subhelbish news" = false :=
  ⟨contains_keywords_iff, by decide, by decide⟩

/-- Closed instance of C5's equivalence at a concrete text. -/
theorem contains_keywords_whole_word_witness :
    contains_keywords "HELB announced changes" = true :=
  contains_keywords_whole_word.2.1

/-! ## The sentiment classifier -/

theorem classify_iffs (score : String → ℚ) (text : String) :
    (classify_sentiment score text = "Positive" ↔ 5 / 100 ≤ score text)
    ∧ (classify_sentiment score text = "Negative" ↔ score text ≤ -(5 / 100))
    ∧ (classify_sentiment score text = "Neutral" ↔
        -(5 / 100) < score text ∧ score text < 5 / 100) := by
  unfold classify_sentiment
  split_ifs with h1 h2
  · refine ⟨⟨fun _ => h1, fun _ => rfl⟩, ⟨fun hc => absurd hc (by decide), fun hc => ?_⟩,
      ⟨fun hc => absurd hc (by decide), fun hc => ?_⟩⟩
    · exfalso; linarith
    · exfalso; linarith [hc.2]
  · refine ⟨⟨fun hc => absurd hc (by decide), fun hc => absurd hc h1⟩,
      ⟨fun _ => h2, fun _ => rfl⟩,
      ⟨fun hc => absurd hc (by decide), fun hc => ?_⟩⟩
    exfalso; linarith [hc.1]
  · push_neg at h1 h2
    refine ⟨⟨fun hc => absurd hc (by decide), fun hc => absurd h1 (by linarith)⟩,
      ⟨fun hc => absurd hc (by decide), fun hc => absurd h2 (by linarith)⟩,
      ⟨fun _ => ⟨h2, h1⟩, fun _ => rfl⟩⟩

/-- C4: `classify_sentiment` returns Positive iff the compound score is
at least 0.05, Negative iff it is at most -0.05, Neutral otherwise, with
both boundaries inclusive; empty input (whose score is 0) is Neutral. -/
theorem classify_sentiment_thresholds (score : String → ℚ) (text : String) :
    ((classify_sentiment score text = "Positive" ↔ 5 / 100 ≤ score text)
    ∧ (classify_sentiment score text = "Negative" ↔ score text ≤ -(5 / 100))
    ∧ (classify_sentiment score text = "Neutral" ↔
        -(5 / 100) < score text ∧ score text < 5 / 100))
    ∧ (score "" = 0 → classify_sentiment score "" = "Neutral") := by
  refine ⟨classify_iffs score text, fun h0 => ?_⟩
  rw [(classify_iffs score "").2.2, h0]
  norm_num

/-- Closed instance of C4: the constant-zero scorer classifies the empty
text as Neutral, and a score of exactly 0.05 classifies as Positive. -/
theorem classify_sentiment_thresholds_witness :
    classify_sentiment (fun _ => 0) "" = "Neutral"
    ∧ classify_sentiment (fun _ => 5 / 100) "x" = "Positive" :=
  ⟨(classify_sentiment_thresholds (fun _ => 0) "").2 rfl,
   (classify_sentiment_thresholds (fun _ => 5 / 100) "x").1.1.mpr le_rfl⟩

/-! ## Lemmas about the collection loops -/

@[simp] theorem link_set_link (x : Row) (l : String) :
    ({ x with link := l } : Row).link = l := rfl

@[simp] theorem sigOf_set_link (x : Row) (l : String) :
    sigOf { x with link := l } = sigOf x := rfl

theorem loopKeep_some {b : Bool} {links : List String} {sigs : List (String × String)}
    {checkKw : Bool} {x y : Row} (h : loopKeep b links sigs checkKw x = some y) :
    y = { x with link := pstrip x.link }
    ∧ (b = false → (pstrip x.link ≠ "" → pstrip x.link ∉ links)
        ∧ (pstrip x.link = "" → sigOf x ∉ sigs))
    ∧ (checkKw = true → contains_keywords (x.title ++ " " ++ x.summary) = true) := by
  simp only [loopKeep] at h
  split_ifs at h with h1 h2 h3
  refine ⟨(Option.some.inj h).symm, fun hb => ⟨fun hne hmem => ?_, fun he hmem => ?_⟩,
    fun hck => ?_⟩
  · exact h1 ⟨hb, hne, hmem⟩
  · exact h2 ⟨hb, he, hmem⟩
  · cases hcw : contains_keywords (x.title ++ " " ++ x.summary) with
    | true => rfl
    | false => exact absurd ⟨hck, hcw⟩ h3

theorem loopKeep_none_of_link {x : Row} {links : List String}
    {sigs : List (String × String)} {checkKw : Bool}
    (hne : pstrip x.link ≠ "") (hmem : pstrip x.link ∈ links) :
    loopKeep false links sigs checkKw x = none := by
  simp only [loopKeep]
  rw [if_pos ⟨trivial, hne, hmem⟩]

theorem loopKeep_none_of_sig {x : Row} {links : List String}
    {sigs : List (String × String)} {checkKw : Bool}
    (he : pstrip x.link = "") (hmem : sigOf x ∈ sigs) :
    loopKeep false links sigs checkKw x = none := by
  simp only [loopKeep]
  rw [if_neg (by simp [he]), if_pos ⟨trivial, he, hmem⟩]

theorem loopKeep_none_of_kw {b : Bool} {x : Row} {links : List String}
    {sigs : List (String × String)}
    (hcw : contains_keywords (x.title ++ " " ++ x.summary) = false) :
    loopKeep b links sigs true x = none := by
  simp only [loopKeep]
  split_ifs with h1 h2 h3
  · rfl
  · rfl
  · rfl
  · exact absurd ⟨trivial, hcw⟩ h3

theorem existing_links_mem {store : List Row} {p : Row}
    (hp : p ∈ store) (hne : p.link ≠ "") : pstrip p.link ∈ existing_links store := by
  unfold existing_links
  exact List.mem_map.mpr ⟨p, List.mem_filter.mpr ⟨hp, by simpa using hne⟩, rfl⟩

theorem existing_sigs_mem {store : List Row} {p : Row}
    (hp : p ∈ store) : sigOf p ∈ existing_sigs store :=
  List.mem_map.mpr ⟨p, hp, rfl⟩

theorem existing_links_mono {store more : List Row} {a : String}
    (h : a ∈ existing_links store) : a ∈ existing_links (store ++ more) := by
  unfold existing_links at *
  rw [List.filter_append, List.map_append]
  exact List.mem_append_left _ h

theorem existing_sigs_mono {store more : List Row} {a : String × String}
    (h : a ∈ existing_sigs store) : a ∈ existing_sigs (store ++ more) := by
  unfold existing_sigs at *
  rw [List.map_append]
  exact List.mem_append_left _ h

theorem runNewRows_mem {store g r h : List Row} {y : Row}
    (hy : y ∈ runNewRows false store g r h) :
    y.link = pstrip y.link
    ∧ (y.link ≠ "" → y.link ∉ existing_links store)
    ∧ (y.link = "" → sigOf y ∉ existing_sigs store) := by
  unfold runNewRows at hy
  simp only [List.mem_append, List.mem_filterMap] at hy
  have : ∃ x, loopKeep false (existing_links store) (existing_sigs store) true x = some y
      ∨ loopKeep false (existing_links store) (existing_sigs store) false x = some y := by
    rcases hy with (⟨x, _, hk⟩ | ⟨x, _, hk⟩) | ⟨x, _, hk⟩
    · exact ⟨x, Or.inl hk⟩
    · exact ⟨x, Or.inr hk⟩
    · exact ⟨x, Or.inr hk⟩
  obtain ⟨x, hk⟩ := this
  have hks : y = { x with link := pstrip x.link }
      ∧ (pstrip x.link ≠ "" → pstrip x.link ∉ existing_links store)
      ∧ (pstrip x.link = "" → sigOf x ∉ existing_sigs store) := by
    rcases hk with hk | hk
    · obtain ⟨he, hd, _⟩ := loopKeep_some hk
      exact ⟨he, hd rfl⟩
    · obtain ⟨he, hd, _⟩ := loopKeep_some hk
      exact ⟨he, hd rfl⟩
  obtain ⟨rfl, hd1, hd2⟩ := hks
  refine ⟨?_, ?_, ?_⟩
  · simp [pstrip_idem]
  · simpa using hd1
  · simpa using hd2

/-! ## Lemmas about within-run dedup -/

theorem dedupLocal_mem :
    ∀ {rows : List Row} {seenL : List String} {seenS : List (String × String)} {z : Row},
    z ∈ dedupLocal rows seenL seenS →
      (∃ y, y ∈ rows ∧ z = { y with link := pstrip y.link })
      ∧ (z.link ≠ "" → z.link ∉ seenL)
      ∧ (z.link = "" → sigOf z ∉ seenS) := by
  intro rows
  induction rows with
  | nil => intro seenL seenS z hz; simp [dedupLocal] at hz
  | cons a l ih =>
    intro seenL seenS z hz
    simp only [dedupLocal] at hz
    split_ifs at hz with h1 h2 h2'
    · obtain ⟨⟨y, hy, he⟩, hL, hS⟩ := ih hz
      exact ⟨⟨y, List.mem_cons_of_mem _ hy, he⟩, hL, hS⟩
    · rcases List.mem_cons.mp hz with rfl | hz'
      · refine ⟨⟨a, List.mem_cons_self _ _, rfl⟩, fun _ => h2, fun he => ?_⟩
        simp only [link_set_link] at he
        exact absurd he h1
      · obtain ⟨⟨y, hy, he⟩, hL, hS⟩ := ih hz'
        exact ⟨⟨y, List.mem_cons_of_mem _ hy, he⟩,
          fun hne hmem => hL hne (List.mem_cons_of_mem _ hmem), hS⟩
    · obtain ⟨⟨y, hy, he⟩, hL, hS⟩ := ih hz
      exact ⟨⟨y, List.mem_cons_of_mem _ hy, he⟩, hL, hS⟩
    · rcases List.mem_cons.mp hz with rfl | hz'
      · have he0 : pstrip a.link = "" := by simpa using h1
        refine ⟨⟨a, List.mem_cons_self _ _, rfl⟩, fun hne => ?_, fun _ => ?_⟩
        · simp only [link_set_link] at hne
          exact absurd he0 hne
        · simpa using h2'
      · obtain ⟨⟨y, hy, he⟩, hL, hS⟩ := ih hz'
        exact ⟨⟨y, List.mem_cons_of_mem _ hy, he⟩, hL,
          fun he' hmem => hS he' (List.mem_cons_of_mem _ hmem)⟩

theorem dedupLocal_pairwise (rows : List Row) :
    ∀ (seenL : List String) (seenS : List (String × String)),
    (dedupLocal rows seenL seenS).Pairwise (fun p q =>
      (p.link ≠ "" → q.link ≠ "" → p.link ≠ q.link)
      ∧ (p.link = "" → q.link = "" → sigOf p ≠ sigOf q)) := by
  induction rows with
  | nil => intro seenL seenS; simp [dedupLocal]
  | cons a l ih =>
    intro seenL seenS
    simp only [dedupLocal]
    split_ifs with h1 h2 h2'
    · exact ih _ _
    · refine List.Pairwise.cons (fun q hq => ?_) (ih _ _)
      obtain ⟨_, hL, _⟩ := dedupLocal_mem hq
      refine ⟨fun hp hqne heq => ?_, fun hp => absurd (by simpa using hp) h1⟩
      simp only [link_set_link] at heq
      exact hL hqne (heq ▸ List.mem_cons_self _ _)
    · exact ih _ _
    · refine List.Pairwise.cons (fun q hq => ?_) (ih _ _)
      obtain ⟨_, _, hS⟩ := dedupLocal_mem hq
      have he0 : pstrip a.link = "" := by simpa using h1
      refine ⟨fun hp _ _ => absurd he0 (by simpa using hp), fun _ hq0 heq => ?_⟩
      simp only [sigOf_set_link] at heq
      exact hS hq0 (heq ▸ List.mem_cons_self _ _)

theorem dedupLocal_filter_link {l : String} (hl : l ≠ "") :
    ∀ (rows : List Row) (seenL : List String) (seenS : List (String × String)),
    (dedupLocal rows seenL seenS).filter (linkEq l) =
      if l ∈ seenL then []
      else ((rows.filter (plinkEq l)).head?.map
        (fun y => { y with link := pstrip y.link })).toList := by
  intro rows
  induction rows with
  | nil =>
    intro seenL seenS
    simp [dedupLocal]
  | cons a l' ih =>
    intro seenL seenS
    by_cases h1 : pstrip a.link = ""
    · have hfa : ¬ plinkEq l a = true := by
        simp only [plinkEq, beq_iff_eq, h1]
        exact fun he => hl he.symm
      rw [List.filter_cons_of_neg hfa]
      simp only [dedupLocal]
      rw [if_neg (by simpa using h1)]
      by_cases h2 : sigOf a ∈ seenS
      · rw [if_pos h2, ih]
      · rw [if_neg h2,
          List.filter_cons_of_neg (show ¬ linkEq l { a with link := pstrip a.link } = true by
            simp only [linkEq, link_set_link, beq_iff_eq, h1]
            exact fun he => hl he.symm),
          ih]
    · simp only [dedupLocal]
      rw [if_pos h1]
      by_cases h2 : pstrip a.link ∈ seenL
      · rw [if_pos h2, ih]
        by_cases hal : pstrip a.link = l
        · have hmem : l ∈ seenL := hal ▸ h2
          rw [if_pos hmem, if_pos hmem]
        · rw [List.filter_cons_of_neg
            (show ¬ plinkEq l a = true by simp only [plinkEq, beq_iff_eq]; exact hal)]
      · rw [if_neg h2]
        by_cases hal : pstrip a.link = l
        · have hnot : l ∉ seenL := hal ▸ h2
          rw [if_neg hnot,
            List.filter_cons_of_pos (show linkEq l { a with link := pstrip a.link } = true by
              simp only [linkEq, link_set_link, beq_iff_eq]; exact hal),
            ih, if_pos (show l ∈ pstrip a.link :: seenL from hal ▸ List.mem_cons_self _ _),
            List.filter_cons_of_pos
              (show plinkEq l a = true by simp only [plinkEq, beq_iff_eq]; exact hal),
            List.head?_cons]
          rfl
        · rw [List.filter_cons_of_neg (show ¬ linkEq l { a with link := pstrip a.link } = true by
              simp only [linkEq, link_set_link, beq_iff_eq]; exact hal),
            ih,
            List.filter_cons_of_neg
              (show ¬ plinkEq l a = true by simp only [plinkEq, beq_iff_eq]; exact hal)]
          by_cases hmem : l ∈ seenL
          · rw [if_pos (List.mem_cons_of_mem _ hmem), if_pos hmem]
          · rw [if_neg (show l ∉ pstrip a.link :: seenL by
                intro hc
                rcases List.mem_cons.mp hc with he | he
                exacts [hal he.symm, hmem he]),
              if_neg hmem]

theorem dedupLocal_cover_link {l : String} (hl : l ≠ "") :
    ∀ (rows : List Row) (seenL : List String) (seenS : List (String × String)),
    l ∉ seenL → (∃ y ∈ rows, pstrip y.link = l) →
    ∃ z ∈ dedupLocal rows seenL seenS, z.link = l := by
  intro rows
  induction rows with
  | nil =>
    intro seenL seenS _ hex
    simp at hex
  | cons a l' ih =>
    intro seenL seenS hnot hex
    simp only [dedupLocal]
    split_ifs with h1 h2 h2'
    · refine ih _ _ hnot ?_
      obtain ⟨y, hy, hyl⟩ := hex
      rcases List.mem_cons.mp hy with rfl | hy'
      · exact absurd (hyl ▸ h2) hnot
      · exact ⟨y, hy', hyl⟩
    · by_cases hal : pstrip a.link = l
      · exact ⟨{ a with link := pstrip a.link }, List.mem_cons_self _ _, hal⟩
      · have hex' : ∃ y ∈ l', pstrip y.link = l := by
          obtain ⟨y, hy, hyl⟩ := hex
          rcases List.mem_cons.mp hy with rfl | hy'
          · exact absurd hyl hal
          · exact ⟨y, hy', hyl⟩
        have hnot' : l ∉ pstrip a.link :: seenL := by
          intro hc
          rcases List.mem_cons.mp hc with he | he
          exacts [hal he.symm, hnot he]
        obtain ⟨z, hz, hzl⟩ := ih _ _ hnot' hex'
        exact ⟨z, List.mem_cons_of_mem _ hz, hzl⟩
    · have ha0 : pstrip a.link = "" := by simpa using h1
      refine ih _ _ hnot ?_
      obtain ⟨y, hy, hyl⟩ := hex
      rcases List.mem_cons.mp hy with rfl | hy'
      · exact absurd (ha0.symm.trans hyl).symm hl
      · exact ⟨y, hy', hyl⟩
    · have ha0 : pstrip a.link = "" := by simpa using h1
      obtain ⟨y, hy, hyl⟩ := hex
      rcases List.mem_cons.mp hy with rfl | hy'
      · exact absurd (ha0.symm.trans hyl).symm hl
      · obtain ⟨z, hz, hzl⟩ := ih seenL (sigOf a :: seenS) hnot ⟨y, hy', hyl⟩
        exact ⟨z, List.mem_cons_of_mem _ hz, hzl⟩

theorem dedupLocal_cover_sig :
    ∀ (rows : List Row) (seenL : List String) (seenS : List (String × String))
      (s : String × String), s ∉ seenS →
    (∃ y ∈ rows, pstrip y.link = "" ∧ sigOf y = s) →
    ∃ z ∈ dedupLocal rows seenL seenS, z.link = "" ∧ sigOf z = s := by
  intro rows
  induction rows with
  | nil =>
    intro seenL seenS s _ hex
    simp at hex
  | cons a l' ih =>
    intro seenL seenS s hnot hex
    simp only [dedupLocal]
    split_ifs with h1 h2 h2'
    · refine ih _ _ _ hnot ?_
      obtain ⟨y, hy, hy0, hys⟩ := hex
      rcases List.mem_cons.mp hy with rfl | hy'
      · exact absurd hy0 h1
      · exact ⟨y, hy', hy0, hys⟩
    · obtain ⟨y, hy, hy0, hys⟩ := hex
      rcases List.mem_cons.mp hy with rfl | hy'
      · exact absurd hy0 h1
      · obtain ⟨z, hz, hz0, hzs⟩ := ih (pstrip a.link :: seenL) seenS s hnot ⟨y, hy', hy0, hys⟩
        exact ⟨z, List.mem_cons_of_mem _ hz, hz0, hzs⟩
    · refine ih _ _ _ hnot ?_
      obtain ⟨y, hy, hy0, hys⟩ := hex
      rcases List.mem_cons.mp hy with rfl | hy'
      · exact absurd (hys ▸ h2') hnot
      · exact ⟨y, hy', hy0, hys⟩
    · have ha0 : pstrip a.link = "" := by simpa using h1
      obtain ⟨y, hy, hy0, hys⟩ := hex
      rcases List.mem_cons.mp hy with rfl | hy'
      · exact ⟨{ y with link := pstrip y.link }, List.mem_cons_self _ _, by simpa using hy0, by simpa using hys⟩
      · by_cases hsa : sigOf a = s
        · exact ⟨{ a with link := pstrip a.link }, List.mem_cons_self _ _, by simpa using ha0, by simpa using hsa⟩
        · obtain ⟨z, hz, hz0, hzs⟩ := ih seenL (sigOf a :: seenS) s
            (by simp [List.mem_cons, hnot]; exact fun he => hsa he.symm) ⟨y, hy', hy0, hys⟩
          exact ⟨z, List.mem_cons_of_mem _ hz, hz0, hzs⟩

theorem pstrip_empty : pstrip "" = "" := rfl

theorem loopKeep_false (links : List String) (sigs : List (String × String))
    (kw : Bool) (x : Row) :
    loopKeep false links sigs kw x =
      if pstrip x.link ≠ "" ∧ pstrip x.link ∈ links then none
      else if pstrip x.link = "" ∧ sigOf x ∈ sigs then none
      else if kw = true ∧ contains_keywords (x.title ++ " " ++ x.summary) = false then none
      else some { x with link := pstrip x.link } := by
  simp [loopKeep]

theorem loopKeep_true (links : List String) (sigs : List (String × String))
    (kw : Bool) (x : Row) :
    loopKeep true links sigs kw x =
      if kw = true ∧ contains_keywords (x.title ++ " " ++ x.summary) = false then none
      else some { x with link := pstrip x.link } := by
  simp [loopKeep]

/-! ## C1: link dedup across the store and within the final batch -/

/-- C1: in a run without the backfill flag, if no two pre-run store rows
share a non-empty link then no two post-run store rows do, and among the
candidates of `new_rows` whose stripped link is a given non-empty `l`,
exactly the first one in encounter order is accepted into the final batch. -/
theorem run_preserves_link_dedup (store g r h : List Row) (l : String)
    (hst : store.Pairwise (fun p q => p.link ≠ "" → q.link ≠ "" → p.link ≠ q.link))
    (hl : l ≠ "") :
    (store ++ runFinalRows false store g r h).Pairwise
      (fun p q => p.link ≠ "" → q.link ≠ "" → p.link ≠ q.link)
    ∧ (runFinalRows false store g r h).filter (linkEq l)
      = (((runNewRows false store g r h).filter (plinkEq l)).head?.map
          (fun y => { y with link := pstrip y.link })).toList := by
  constructor
  · rw [List.pairwise_append]
    refine ⟨hst, ?_, ?_⟩
    · exact (dedupLocal_pairwise _ _ _).imp (fun hpq => hpq.1)
    · intro p hp z hz
      obtain ⟨⟨y, hy, rfl⟩, _, _⟩ := dedupLocal_mem hz
      intro hpne hzne
      have hym := runNewRows_mem hy
      have hzl : pstrip y.link = y.link := hym.1.symm
      simp only [link_set_link] at hzne ⊢
      intro heq
      have h1 : pstrip p.link ∈ existing_links store := existing_links_mem hp hpne
      have h2 : y.link ∉ existing_links store := by
        refine hym.2.1 ?_
        rw [← hzl]
        exact hzne
      apply h2
      have h3 : pstrip p.link = y.link := by rw [heq, pstrip_idem, hzl]
      rw [← h3]
      exact h1
  · show (final_rows (runNewRows false store g r h)).filter (linkEq l) = _
    rw [final_rows, dedupLocal_filter_link hl, if_neg (by simp)]

/-- Closed instance of C1 on a two-adapter duplicate-link run. -/
theorem run_preserves_link_dedup_witness :
    (([] : List Row).Pairwise (fun p q => p.link ≠ "" → q.link ≠ "" → p.link ≠ q.link))
    ∧ ("http://x" : String) ≠ ""
    ∧ ((([] : List Row) ++ runFinalRows false [] [gCand] [rCand] []).Pairwise
        (fun p q => p.link ≠ "" → q.link ≠ "" → p.link ≠ q.link)
      ∧ (runFinalRows false [] [gCand] [rCand] []).filter (linkEq "http://x")
        = (((runNewRows false [] [gCand] [rCand] []).filter (plinkEq "http://x")).head?.map
            (fun y => { y with link := pstrip y.link })).toList) :=
  ⟨List.Pairwise.nil, by decide,
    run_preserves_link_dedup [] [gCand] [rCand] [] "http://x" List.Pairwise.nil (by decide)⟩

/-! ## C9: backfill bypasses cross-run dedup only -/

/-- C9: with the backfill flag the cross-run check never rejects a
candidate (the loop's result does not depend on the store-derived sets),
while within-run dedup still guarantees the final batch has no duplicate
non-empty link and no duplicate (title, published) pair among linkless
rows. -/
theorem backfill_bypasses_cross_run_dedup :
    (∀ (links : List String) (sigs : List (String × String)) (kw : Bool) (row : Row),
      loopKeep true links sigs kw row = loopKeep true [] [] kw row)
    ∧ (∀ rows : List Row, (final_rows rows).Pairwise (fun p q =>
        (p.link ≠ "" → q.link ≠ "" → p.link ≠ q.link)
        ∧ (p.link = "" → q.link = "" → (p.title, p.published) ≠ (q.title, q.published)))) := by
  constructor
  · intro links sigs kw row
    rw [loopKeep_true, loopKeep_true]
  · intro rows
    refine (dedupLocal_pairwise rows [] []).imp ?_
    intro p q hpq
    refine ⟨hpq.1, fun hp hq heq => hpq.2 hp hq ?_⟩
    rw [Prod.mk.injEq] at heq
    simp only [sigOf, heq.1, heq.2]

/-- Closed instance of C9: the backfill loop ignores a populated link set. -/
theorem backfill_bypasses_cross_run_dedup_witness :
    loopKeep true ["http://x"] [("T", "2024-01-01")] true gCand
      = loopKeep true [] [] true gCand :=
  backfill_bypasses_cross_run_dedup.1 ["http://x"] [("T", "2024-01-01")] true gCand

/-! ## C3: which records feed the signature set -/

/-- C3 counterexample: a linkless candidate is rejected by the cross-run
dedup although every existing record has a non-empty link — the signature
set is built from all existing records, not only the linkless ones. -/
theorem linkless_reject_despite_no_linkless_record :
    loopKeep false (existing_links [storeRowLinked]) (existing_sigs [storeRowLinked])
      false candLinkless = none
    ∧ ∀ p ∈ [storeRowLinked], p.link ≠ "" := by
  constructor
  · decide
  · decide

/-- C3 (amended): the signature set contains the stripped
(title, published) signatures of ALL existing records, and a linkless
candidate is rejected by the cross-run dedup exactly when some existing
record — with or without a link — carries its signature. -/
theorem linkless_reject_iff_existing_sig (store : List Row) (x : Row)
    (hx : pstrip x.link = "") :
    (loopKeep false (existing_links store) (existing_sigs store) false x = none
      ↔ ∃ p ∈ store, sigOf p = sigOf x)
    ∧ existing_sigs store = store.map sigOf := by
  refine ⟨⟨fun hnone => ?_, fun hex => ?_⟩, rfl⟩
  · rw [loopKeep_false] at hnone
    split_ifs at hnone with h1 h2 h3
    · exact absurd hx h1.1
    · obtain ⟨p, hp, hs⟩ := List.mem_map.mp h2.2
      exact ⟨p, hp, hs⟩
    · exact absurd h3.1 (by simp)
  · obtain ⟨p, hp, hs⟩ := hex
    exact loopKeep_none_of_sig hx (List.mem_map.mpr ⟨p, hp, hs⟩)

/-- Closed instance of C3's amended equivalence. -/
theorem linkless_reject_iff_existing_sig_witness :
    pstrip candLinkless.link = ""
    ∧ ((loopKeep false (existing_links [storeRowLinked]) (existing_sigs [storeRowLinked])
        false candLinkless = none
      ↔ ∃ p ∈ [storeRowLinked], sigOf p = sigOf candLinkless)
      ∧ existing_sigs [storeRowLinked] = [storeRowLinked].map sigOf) :=
  ⟨by decide, linkless_reject_iff_existing_sig [storeRowLinked] candLinkless (by decide)⟩

/-! ## C2: idempotence of a repeated run -/

theorem loopKeep_second_none (store : List Row) (nr1 : List Row) (kw : Bool) (x : Row)
    (hsome : ∀ y, loopKeep false (existing_links store) (existing_sigs store) kw x = some y →
      y ∈ nr1) :
    loopKeep false (existing_links (store ++ final_rows nr1))
      (existing_sigs (store ++ final_rows nr1)) kw x = none := by
  by_cases hxl : pstrip x.link = ""
  · by_cases hsig : sigOf x ∈ existing_sigs store
    · exact loopKeep_none_of_sig hxl (existing_sigs_mono hsig)
    · by_cases hkw : kw = true ∧ contains_keywords (x.title ++ " " ++ x.summary) = false
      · rw [loopKeep_false, if_neg (fun hc => hc.1 hxl)]
        by_cases hs2 : sigOf x ∈ existing_sigs (store ++ final_rows nr1)
        · rw [if_pos ⟨hxl, hs2⟩]
        · rw [if_neg (fun hc => hs2 hc.2), if_pos hkw]
      · have h1 : loopKeep false (existing_links store) (existing_sigs store) kw x
            = some { x with link := pstrip x.link } := by
          rw [loopKeep_false, if_neg (fun hc => hc.1 hxl), if_neg (fun hc => hsig hc.2),
            if_neg hkw]
        have hy := hsome _ h1
        have hexi : ∃ y ∈ nr1, pstrip y.link = "" ∧ sigOf y = sigOf x := by
          refine ⟨{ x with link := pstrip x.link }, hy, ?_, by simp⟩
          rw [link_set_link, hxl, pstrip_empty]
        obtain ⟨z, hz, hz0, hzs⟩ := dedupLocal_cover_sig nr1 [] [] (sigOf x) (by simp) hexi
        apply loopKeep_none_of_sig hxl
        have hmem := existing_sigs_mem (List.mem_append_right store hz)
        rw [hzs] at hmem
        exact hmem
  · by_cases hlink : pstrip x.link ∈ existing_links store
    · exact loopKeep_none_of_link hxl (existing_links_mono hlink)
    · by_cases hkw : kw = true ∧ contains_keywords (x.title ++ " " ++ x.summary) = false
      · rw [loopKeep_false]
        by_cases hl2 : pstrip x.link ∈ existing_links (store ++ final_rows nr1)
        · rw [if_pos ⟨hxl, hl2⟩]
        · rw [if_neg (fun hc => hl2 hc.2), if_neg (fun hc => hxl hc.1), if_pos hkw]
      · have h1 : loopKeep false (existing_links store) (existing_sigs store) kw x
            = some { x with link := pstrip x.link } := by
          rw [loopKeep_false, if_neg (fun hc => hlink hc.2), if_neg (fun hc => hxl hc.1),
            if_neg hkw]
        have hy := hsome _ h1
        have hexi : ∃ y ∈ nr1, pstrip y.link = pstrip x.link := by
          refine ⟨{ x with link := pstrip x.link }, hy, ?_⟩
          rw [link_set_link, pstrip_idem]
        obtain ⟨z, hz, hzl⟩ := dedupLocal_cover_link hxl nr1 [] [] (by simp) hexi
        apply loopKeep_none_of_link hxl
        have hzne : z.link ≠ "" := by
          rw [hzl]
          exact hxl
        have hmem := existing_links_mem (List.mem_append_right store hz) hzne
        rw [hzl, pstrip_idem] at hmem
        exact hmem

/-- C2: running the pipeline a second time, without the backfill flag,
against the store produced by the first run and with the same adapter
outputs, lets no candidate through the cross-run dedup and keyword
filters: `new_rows` is empty, hence the final batch is empty and there is
nothing to write. -/
theorem second_run_appends_nothing (store g r h : List Row) :
    runNewRows false (store ++ runFinalRows false store g r h) g r h = []
    ∧ runFinalRows false (store ++ runFinalRows false store g r h) g r h = []
    ∧ (∀ (sv : List (List String)) (bOk : List Row → Bool) (rOk : Row → Bool),
        appendPhase sv bOk rOk
          (runFinalRows false (store ++ runFinalRows false store g r h) g r h) = []) := by
  have hmain : runNewRows false (store ++ runFinalRows false store g r h) g r h = [] := by
    have hg : ∀ x ∈ g, loopKeep false
        (existing_links (store ++ runFinalRows false store g r h))
        (existing_sigs (store ++ runFinalRows false store g r h)) true x = none := by
      intro x hx
      apply loopKeep_second_none store (runNewRows false store g r h) true x
      intro y hy
      exact List.mem_append_left _ (List.mem_append_left _ (List.mem_filterMap.mpr ⟨x, hx, hy⟩))
    have hr : ∀ x ∈ r, loopKeep false
        (existing_links (store ++ runFinalRows false store g r h))
        (existing_sigs (store ++ runFinalRows false store g r h)) false x = none := by
      intro x hx
      apply loopKeep_second_none store (runNewRows false store g r h) false x
      intro y hy
      exact List.mem_append_left _ (List.mem_append_right _ (List.mem_filterMap.mpr ⟨x, hx, hy⟩))
    have hh : ∀ x ∈ h, loopKeep false
        (existing_links (store ++ runFinalRows false store g r h))
        (existing_sigs (store ++ runFinalRows false store g r h)) false x = none := by
      intro x hx
      apply loopKeep_second_none store (runNewRows false store g r h) false x
      intro y hy
      exact List.mem_append_right _ (List.mem_filterMap.mpr ⟨x, hx, hy⟩)
    show runNewRows false (store ++ runFinalRows false store g r h) g r h = []
    rw [runNewRows, List.append_eq_nil, List.append_eq_nil]
    exact ⟨⟨List.filterMap_eq_nil_iff.mpr hg, List.filterMap_eq_nil_iff.mpr hr⟩,
      List.filterMap_eq_nil_iff.mpr hh⟩
  have hfin : runFinalRows false (store ++ runFinalRows false store g r h) g r h = [] := by
    show final_rows (runNewRows false (store ++ runFinalRows false store g r h) g r h) = []
    rw [hmain]
    rfl
  exact ⟨hmain, hfin, fun sv bOk rOk => by rw [hfin]; rfl⟩

/-- Closed instance of C2 on a concrete seeded run. -/
theorem second_run_appends_nothing_witness :
    runNewRows false ([storeRowLinked] ++ runFinalRows false [storeRowLinked] [gCand] [rCand] [])
      [gCand] [rCand] [] = []
    ∧ runFinalRows false ([storeRowLinked] ++ runFinalRows false [storeRowLinked] [gCand] [rCand] [])
      [gCand] [rCand] [] = [] :=
  ⟨(second_run_appends_nothing [storeRowLinked] [gCand] [rCand] []).1,
   (second_run_appends_nothing [storeRowLinked] [gCand] [rCand] []).2.1⟩

/-! ## C7 and C10: the writer -/

theorem chunkGo_flatten : ∀ (fuel : Nat) (rows : List Row), rows.length ≤ fuel →
    (chunkGo fuel rows).flatten = rows := by
  intro fuel
  induction fuel with
  | zero =>
    intro rows hr
    rw [List.length_eq_zero.mp (Nat.le_zero.mp hr)]
    rfl
  | succ n ih =>
    intro rows hr
    cases rows with
    | nil => rfl
    | cons a rest =>
      simp only [chunkGo, List.flatten_cons]
      rw [ih _ (by simp only [List.length_drop]; simp only [List.length_cons] at hr ⊢; omega)]
      exact List.take_append_drop 50 (a :: rest)

theorem chunkGo_le : ∀ (fuel : Nat) (rows : List Row), ∀ c ∈ chunkGo fuel rows,
    c.length ≤ 50 := by
  intro fuel
  induction fuel with
  | zero =>
    intro rows c hc
    simp [chunkGo] at hc
  | succ n ih =>
    intro rows c hc
    cases rows with
    | nil => simp [chunkGo] at hc
    | cons a rest =>
      simp only [chunkGo] at hc
      rcases List.mem_cons.mp hc with rfl | hc'
      · simp only [List.length_take]
        exact Nat.min_le_left _ _
      · exact ih _ _ hc'

theorem appendedRows_cons (o : WriteOp) (ops : List WriteOp) :
    appendedRows (o :: ops) = opRows o ++ appendedRows ops := rfl

theorem appendedRows_append (xs ys : List WriteOp) :
    appendedRows (xs ++ ys) = appendedRows xs ++ appendedRows ys := by
  simp [appendedRows, List.map_append]

theorem chunkBatches_flatten (rows : List Row) : (chunkBatches rows).flatten = rows := by
  unfold chunkBatches
  exact chunkGo_flatten _ _ le_rfl

theorem chunkBatches_le (rows : List Row) : ∀ c ∈ chunkBatches rows, c.length ≤ 50 := by
  unfold chunkBatches
  exact chunkGo_le _ _

theorem appendedRows_rowwise (rOk : Row → Bool) (c : List Row) :
    appendedRows (c.filterMap (rowOpIf rOk)) = c.filter rOk := by
  induction c with
  | nil => rfl
  | cons a rest ih =>
    by_cases ha : rOk a
    · rw [List.filterMap_cons_some
        (show rowOpIf rOk a = some (WriteOp.rowAppend a) by rw [rowOpIf, if_pos ha]),
        appendedRows_cons, List.filter_cons_of_pos ha, ih]
      rfl
    · rw [List.filterMap_cons_none
        (show rowOpIf rOk a = none by rw [rowOpIf, if_neg ha]),
        List.filter_cons_of_neg (by simpa using ha), ih]

theorem appendedRows_flatten_map (g : List Row → List WriteOp) (L : List (List Row)) :
    appendedRows ((L.map g).flatten) = (L.map (fun c => appendedRows (g c))).flatten := by
  induction L with
  | nil => rfl
  | cons c L ih =>
    rw [List.map_cons, List.flatten_cons, appendedRows_append, ih, List.map_cons,
      List.flatten_cons]

theorem flatten_map_filter (p : Row → Bool) (L : List (List Row)) :
    (L.map (fun c => c.filter p)).flatten = L.flatten.filter p := by
  induction L with
  | nil => rfl
  | cons c L ih =>
    rw [List.map_cons, List.flatten_cons, List.flatten_cons, List.filter_append, ih]

theorem batchOps_all_fail (rOk : Row → Bool) (rows : List Row) :
    appendedRows (batchOps (fun _ => false) rOk rows) = rows.filter rOk := by
  rw [batchOps, appendedRows_flatten_map]
  have hc : ∀ c : List Row,
      appendedRows (if (fun _ : List Row => false) c
        then [WriteOp.batchAppend c]
        else c.filterMap (rowOpIf rOk))
      = c.filter rOk := by
    intro c
    simp only [Bool.false_eq_true, if_false]
    exact appendedRows_rowwise rOk c
  simp only [hc]
  rw [flatten_map_filter, chunkBatches_flatten]

theorem header_not_mem_batchOps (bOk : List Row → Bool) (rOk : Row → Bool)
    (rows : List Row) : WriteOp.header ∉ batchOps bOk rOk rows := by
  intro hmem
  unfold batchOps at hmem
  rw [List.mem_flatten] at hmem
  obtain ⟨lop, hlop, hin⟩ := hmem
  rw [List.mem_map] at hlop
  obtain ⟨c, _, rfl⟩ := hlop
  by_cases hb : bOk c
  · rw [if_pos hb] at hin
    simp at hin
  · rw [if_neg hb] at hin
    rw [List.mem_filterMap] at hin
    obtain ⟨q, _, hq⟩ := hin
    rw [rowOpIf] at hq
    by_cases hr : rOk q
    · rw [if_pos hr] at hq
      exact WriteOp.noConfusion (Option.some.inj hq)
    · rw [if_neg hr] at hq
      exact Option.noConfusion hq

/-- C7: the writer splits the final batch into groups of at most 50 rows
covering it in order; when every group's batch append fails, the row-wise
fallback appends exactly the individually accepted rows; concretely, for a
5-row batch whose third row the store rejects, rows 1, 2, 4 and 5 are
appended. -/
theorem writer_batch_retry :
    (∀ rows : List Row, (∀ c ∈ chunkBatches rows, c.length ≤ 50)
      ∧ (chunkBatches rows).flatten = rows)
    ∧ (∀ (rOk : Row → Bool) (rows : List Row),
        appendedRows (batchOps (fun _ => false) rOk rows) = rows.filter rOk)
    ∧ appendedRows (appendPhase []
        (fun c => c.all (fun q => decide (q ≠ wRow 3)))
        (fun q => decide (q ≠ wRow 3))
        [wRow 1, wRow 2, wRow 3, wRow 4, wRow 5])
      = [wRow 1, wRow 2, wRow 4, wRow 5] := by
  refine ⟨fun rows => ⟨chunkBatches_le rows, chunkBatches_flatten rows⟩, batchOps_all_fail, ?_⟩
  decide

/-- Closed instance of C7's row-wise fallback equation. -/
theorem writer_batch_retry_witness :
    appendedRows (batchOps (fun _ => false) (fun _ => true) [wRow 1])
      = [wRow 1].filter (fun _ => true) :=
  writer_batch_retry.2.1 (fun _ => true) [wRow 1]

/-- C10: an empty final batch performs no write at all — not even the
header on an empty store; the header is written exactly when the final
batch is non-empty and the store has no values, and then it comes first,
immediately followed by the batched appends. -/
theorem append_phase_writes :
    (∀ (storeValues : List (List String)) (bOk : List Row → Bool) (rOk : Row → Bool),
      appendPhase storeValues bOk rOk [] = [])
    ∧ (∀ (storeValues : List (List String)) (bOk : List Row → Bool) (rOk : Row → Bool)
        (rows : List Row), WriteOp.header ∈ appendPhase storeValues bOk rOk rows →
        rows ≠ [] ∧ storeValues = [])
    ∧ (∀ (bOk : List Row → Bool) (rOk : Row → Bool) (rows : List Row), rows ≠ [] →
        appendPhase [] bOk rOk rows = WriteOp.header :: batchOps bOk rOk rows) := by
  refine ⟨fun sv bOk rOk => rfl, ?_, ?_⟩
  · intro sv bOk rOk rows hmem
    unfold appendPhase at hmem
    by_cases hrows : rows.isEmpty
    · rw [if_pos hrows] at hmem
      simp at hmem
    · rw [if_neg hrows] at hmem
      refine ⟨fun he => hrows (by simp [he]), ?_⟩
      rcases List.mem_append.mp hmem with hL | hR
      · by_cases hsv : sv.isEmpty
        · simpa using hsv
        · rw [if_neg hsv] at hL
          simp at hL
      · exact absurd hR (header_not_mem_batchOps _ _ _)
  · intro bOk rOk rows hne
    unfold appendPhase
    rw [if_neg (by simpa using hne)]
    rfl

/-- Closed instance of C10: the header precedes the appends on an empty
store with a non-empty batch. -/
theorem append_phase_writes_witness :
    ([wRow 1] : List Row) ≠ []
    ∧ appendPhase [] (fun _ => true) (fun _ => true) [wRow 1]
      = WriteOp.header :: batchOps (fun _ => true) (fun _ => true) [wRow 1] :=
  ⟨by decide, append_phase_writes.2.2 (fun _ => true) (fun _ => true) [wRow 1] (by decide)⟩

/-! ## C6: published-date fallback -/

/-- C6: for both the News-API and RSS adapters, when date parsing fails
the normalized record's `published` equals the trimmed raw string, and
when it succeeds `published` is the canonical `YYYY-MM-DD` form. -/
theorem published_fallback (score : String → ℚ) (parseDate : String → Option Date3)
    (rt rs rl rp src fn : String) :
    ((parseDate (pstrip rp) = none →
        (process_gnews score parseDate rt rs rl rp src).published = pstrip rp)
    ∧ (∀ d, parseDate (pstrip rp) = some d →
        (process_gnews score parseDate rt rs rl rp src).published = formatYMD d))
    ∧ (∀ row, processRssEntry score parseDate fn rt rs rl rp = some row →
        (parseDate (pstrip rp) = none → row.published = pstrip rp)
        ∧ (∀ d, parseDate (pstrip rp) = some d → row.published = formatYMD d)) := by
  refine ⟨⟨fun hn => ?_, fun d hd => ?_⟩, fun row hrow => ?_⟩
  · simp [process_gnews, normalizePublished, hn]
  · simp [process_gnews, normalizePublished, hd]
  · simp only [processRssEntry] at hrow
    by_cases hc : contains_keywords (pstrip rt ++ " " ++ pstrip rs) = false
    · rw [if_pos hc] at hrow
      exact absurd hrow (by simp)
    · rw [if_neg hc] at hrow
      obtain rfl := Option.some.inj hrow
      refine ⟨fun hn => ?_, fun d hd => ?_⟩
      · simp [normalizePublished, hn]
      · simp [normalizePublished, hd]

/-- Closed instance of C6 on the unparseable raw value " unknown ". -/
theorem published_fallback_witness :
    pstrip " unknown " = "unknown"
    ∧ (process_gnews (fun _ => 0) (fun _ => none) "T" "S" "L" " unknown " "Src").published
      = pstrip " unknown " :=
  ⟨by decide,
    (published_fallback (fun _ => 0) (fun _ => none) "T" "S" "L" " unknown " "Src" "Feed").1.1 rfl⟩

/-! ## C8: the keyword filter across adapters -/

/-- C8 counterexample: a candidate whose keyword occurs only in the
summary is dropped by the HTML adapter (whose filter sees the title
alone) but kept by the RSS adapter — the filter is not applied to the
same candidate text by every adapter. -/
theorem keyword_filter_not_uniform :
    contains_keywords ("Campus fees update" ++ " " ++ "HELB announced changes") = true
    ∧ (process_candidate (fun _ => 0) (fun s => s)
        (fun _ => some ("", "HELB announced changes")) "Nation"
        ([], []) "Campus fees update" "http://x").2 = []
    ∧ (processRssEntry (fun _ => 0) (fun _ => none) "Nation"
        "Campus fees update" "HELB announced changes" "http://x" "2024-01-01").isSome
      = true := by
  refine ⟨by decide, by decide, by decide⟩

/-- C8 (amended): the News-API loop keeps a candidate exactly when the
plain loop keeps it and `contains_keywords` accepts title ++ " " ++
summary — the identical predicate and text the RSS adapter uses — while
the HTML adapter's `process_candidate` collects a candidate exactly when
its TITLE alone passes `contains_keywords` and its resolved link is
non-empty and unseen. -/
theorem keyword_filter_per_adapter :
    (∀ (b : Bool) (links : List String) (sigs : List (String × String)) (row : Row),
      loopKeep b links sigs true row
        = if contains_keywords (row.title ++ " " ++ row.summary) = true
          then loopKeep b links sigs false row
          else none)
    ∧ (∀ (score : String → ℚ) (parseDate : String → Option Date3) (fn rt rs rl rp : String),
        (processRssEntry score parseDate fn rt rs rl rp).isSome
          = contains_keywords (pstrip rt ++ " " ++ pstrip rs))
    ∧ (∀ (score : String → ℚ) (resolve : String → String)
        (fetchArticle : String → Option (String × String)) (src : String)
        (seen : List String) (rows : List Row) (t cl : String),
        (process_candidate score resolve fetchArticle src (seen, rows) t cl).2 ≠ rows
          ↔ (t ≠ "" ∧ contains_keywords t = true ∧ resolve cl ≠ "" ∧ resolve cl ∉ seen)) := by
  refine ⟨?_, ?_, ?_⟩
  · intro b links sigs row
    cases b
    · by_cases hcw : contains_keywords (row.title ++ " " ++ row.summary) = true
      · rw [if_pos hcw, loopKeep_false, loopKeep_false]
        simp [hcw]
      · have hcf : contains_keywords (row.title ++ " " ++ row.summary) = false := by
          simpa using hcw
        rw [if_neg hcw, loopKeep_false]
        simp [hcf]
    · by_cases hcw : contains_keywords (row.title ++ " " ++ row.summary) = true
      · rw [if_pos hcw, loopKeep_true, loopKeep_true]
        simp [hcw]
      · have hcf : contains_keywords (row.title ++ " " ++ row.summary) = false := by
          simpa using hcw
        rw [if_neg hcw, loopKeep_true]
        simp [hcf]
  · intro score parseDate fn rt rs rl rp
    simp only [processRssEntry]
    by_cases hcw : contains_keywords (pstrip rt ++ " " ++ pstrip rs) = true
    · rw [if_neg (by simp [hcw]), hcw]
      rfl
    · have hcf : contains_keywords (pstrip rt ++ " " ++ pstrip rs) = false := by
        simpa using hcw
      rw [if_pos hcf, hcf]
      rfl
  · intro score resolve fetchArticle src seen rows t cl
    simp only [process_candidate]
    by_cases h1 : t = ""
    · rw [if_pos h1]
      simp [h1]
    · rw [if_neg h1]
      by_cases h2 : contains_keywords t = false
      · rw [if_pos h2]
        simp [h1, h2]
      · have h2' : contains_keywords t = true := by
          cases hcw : contains_keywords t
          · exact absurd hcw h2
          · rfl
        rw [if_neg h2]
        by_cases h3 : resolve cl = ""
        · rw [if_pos h3]
          simp [h1, h2', h3]
        · rw [if_neg h3]
          by_cases h4 : resolve cl ∈ seen
          · rw [if_pos h4]
            simp [h1, h2', h3, h4]
          · rw [if_neg h4]
            refine ⟨fun _ => ⟨h1, h2', h3, h4⟩, fun _ => ?_⟩
            intro he
            have hlen := congrArg List.length he
            simp at hlen

/-- Closed instance of C8's amended RSS equation. -/
theorem keyword_filter_per_adapter_witness :
    (processRssEntry (fun _ => 0) (fun _ => none) "Nation" "HELB news" "s" "l" "p").isSome
      = contains_keywords (pstrip "HELB news" ++ " " ++ pstrip "s") :=
  keyword_filter_per_adapter.2.1 (fun _ => 0) (fun _ => none) "Nation" "HELB news" "s" "l" "p"

end HelbScraper
